import Mathlib

/-!
Verification development for the Organic Chemistry Daily Radar pipeline
(`organic-chem-radar`): the DOI-based dedup key construction, the on-disk
pushed-DOI set with load/save semantics (`utils.py`), and the selection /
quota / delivery-commit logic of the main pipeline (`main.py`).

Python strings are modelled as lists of Unicode codepoints (`Str`), so that
`strip` / `lower` become list operations amenable to induction.  External
collaborators (the two-layer semantic screener and the Feishu bot) are
modelled as parameters returning `Except Unit _`, where `.error ()` stands
for a raised exception, exactly the granularity at which `main.run` observes
them (every call sits in a `try`/`except` block).
-/

namespace Radar

/-- A Python string, as its list of Unicode codepoints. -/
abbrev Str := List Nat

/-- Embed a Lean string literal as a `Str` (used only for concrete inputs). -/
def S (s : String) : Str := s.toList.map Char.toNat

/-- Python `str` whitespace (the ASCII part relevant here):
space, tab, newline, carriage return, vertical tab, form feed. -/
def isSpace (c : Nat) : Bool :=
  c == 32 || c == 9 || c == 10 || c == 13 || c == 11 || c == 12

/-- Python `str.lower` on one codepoint (ASCII range, as exercised by the
pipeline's DOI/title identifiers). -/
def pyLower (c : Nat) : Nat :=
  if 65 ≤ c ∧ c ≤ 90 then c + 32 else c

/-- Python `str.lower`. -/
def lower (s : Str) : Str := s.map pyLower

/-- Drop leading whitespace (`str.lstrip`). -/
def lstrip (s : Str) : Str := s.dropWhile isSpace

/-- Drop trailing whitespace (`str.rstrip`). -/
def rstrip (s : Str) : Str := (s.reverse.dropWhile isSpace).reverse

/-- Python `str.strip`. -/
def strip (s : Str) : Str := rstrip (lstrip s)

/-- The normalization `s.strip().lower()` applied throughout the pipeline. -/
def norm (s : Str) : Str := lower (strip s)

/-! ### Article candidates and the dedup filter (`utils.deduplicate_by_doi`) -/

/-- An article record as produced by the ingestion layer: a Python dict whose
fields may be absent (`none`) or present. -/
structure Article where
  journal : Option Str := none
  title : Option Str := none
  abstract : Option Str := none
  doi : Option Str := none
  link : Option Str := none
deriving DecidableEq, Repr

/-- `(item.get(k) or "")`: an absent (`None`) or empty field becomes `""`. -/
def getS (o : Option Str) : Str := o.getD []

/-- The dedup key computed in `deduplicate_by_doi`:
`doi = (item.get("doi") or "").strip().lower()`,
`fallback = (item.get("title") or "").strip().lower()`,
`key = doi or "title::" + fallback`. -/
def dedupKey (item : Article) : Str :=
  let doi := norm (getS item.doi)
  let fallback := norm (getS item.title)
  if doi = [] then S "title::" ++ fallback else doi

/-- Loop body of `deduplicate_by_doi`, with the `seen` set explicit. -/
def dedupGo (seen : Finset Str) : List Article → List Article
  | [] => []
  | item :: rest =>
      let key := dedupKey item
      if key ∈ seen then dedupGo seen rest
      else item :: dedupGo (insert key seen) rest

/-- `utils.deduplicate_by_doi`: single pass with a `seen` set, keeping the
first occurrence of each key. -/
def deduplicate_by_doi (items : List Article) : List Article :=
  dedupGo ∅ items

/-! ### The on-disk pushed-DOI store (`utils.load_pushed_dois` / `utils.save_pushed_dois`) -/

/-- A parsed JSON value, as returned by `json.loads`. -/
inductive Json where
  | null
  | bool (b : Bool)
  | num (n : Int)
  | str (s : Str)
  | arr (elems : List Json)
  | obj (fields : List (Str × Json))

mutual

/-- Python `repr` of a parsed-JSON value (used by `str` on containers).
String escaping inside `repr` is not modelled beyond quoting, which is exact
for the identifier strings this pipeline stores. -/
def pyRepr : Json → Str
  | .null => S "None"
  | .bool true => S "True"
  | .bool false => S "False"
  | .num n => S (toString n)
  | .str s => [39] ++ s ++ [39]
  | .arr elems => S "[" ++ pyReprItems elems ++ S "]"
  | .obj fields => S "\x7b" ++ pyReprEntries fields ++ S "\x7d"

/-- Comma-joined `repr`s of list elements. -/
def pyReprItems : List Json → Str
  | [] => []
  | [x] => pyRepr x
  | x :: y :: xs => pyRepr x ++ S ", " ++ pyReprItems (y :: xs)

/-- Comma-joined `key: value` pairs of a dict `repr` (keys are quoted as
`repr` of a string does). -/
def pyReprEntries : List (Str × Json) → Str
  | [] => []
  | [(k, v)] => [39] ++ k ++ [39] ++ S ": " ++ pyRepr v
  | (k, v) :: kw :: xs =>
      [39] ++ k ++ [39] ++ S ": " ++ pyRepr v ++ S ", " ++ pyReprEntries (kw :: xs)

end

/-- Python `str` of a parsed-JSON value: identity on strings, `repr`-like on
everything else. -/
def pyStr (v : Json) : Str :=
  match v with
  | .str s => s
  | v => pyRepr v

/-- The observable state of the store file: absent, present but unreadable or
not well-formed JSON (`OSError` / `json.JSONDecodeError`), or parsed. -/
inductive FileState where
  | missing
  | invalid (raw : Str)
  | parsed (v : Json)

/-- `utils.load_pushed_dois`: empty set if the file is missing, unreadable, or
not a JSON list; otherwise `{str(x).strip().lower() for x in data if str(x).strip()}`. -/
def load_pushed_dois (fs : FileState) : Finset Str :=
  match fs with
  | .missing => ∅
  | .invalid _ => ∅
  | .parsed data =>
      match data with
      | .arr xs =>
          ((xs.filter (fun x => decide (strip (pyStr x) ≠ []))).map
            (fun x => norm (pyStr x))).toFinset
      | _ => ∅

/-- `utils.save_pushed_dois`:
`normalized = sorted({d.strip().lower() for d in dois if d and d.strip()})`,
then the file is overwritten with the JSON list `normalized` (with a fixed
serialization format, so two equal `FileState`s have byte-identical files). -/
def save_pushed_dois (dois : Finset Str) : FileState :=
  let kept := dois.filter (fun d => d ≠ [] ∧ strip d ≠ [])
  let normalized := (kept.image norm).sort (· ≤ ·)
  .parsed (.arr (normalized.map Json.str))

/-- Modelled from the spec (§8): "normalize = lower-case, trim, drop empties",
written from the spec's words for comparison with the store implementation. -/
def normalize_spec (dois : Finset Str) : Finset Str :=
  (dois.image norm).filter (fun d => d ≠ [])

/-! ### The selection loop and delivery commit (`main.run`) -/

/-- Output of the classification collaborator (`SemanticFilter.analyze_article`
returns either `None` or a dict with exactly these four string fields,
see `semantic_filter.py` lines 96-101). -/
structure ClassResult where
  category : Str
  title_zh : Str
  abstract_zh : Str
  recommendation : Str
deriving DecidableEq, Repr

/-- The two-layer screener collaborator, at the granularity `main.run`
observes it: each call either raises (`error`) or returns.
`fast_screen` is Layer 1 (fast screen), `analyze_article` is Layer 2
(deep classification); `analyze_article` returning `none` means
"not relevant". -/
structure Screeners where
  fast_screen : Article → Except Unit Bool
  analyze_article : Article → Except Unit (Option ClassResult)

/-- Daily push cap for the carbene bucket (`main.py` line 18). -/
def MAX_CARBENE : Nat := 8

/-- Daily push cap for the methodology bucket (`main.py` line 19). -/
def MAX_METHODOLOGY : Nat := 5

/-- State of the screening loop: the two category buckets
(`carbene_papers`, `methodology_papers`, each holding the merged
`{**article, **result}` record as a pair), instrumented with the traces of
articles on which each screener layer was invoked. -/
structure LoopState where
  carbene_papers : List (Article × ClassResult) := []
  methodology_papers : List (Article × ClassResult) := []
  fastCalls : List Article := []
  deepCalls : List Article := []
deriving DecidableEq, Repr

/-- The loop state at `main.run` step 4 entry. -/
def initState : LoopState := {}

/-- One iteration of the screening loop (`main.py` lines 58-97): the
already-pushed-DOI skip, the required-field gate, Layer 1, Layer 2,
bucket append, and the early-termination test.  The returned `Bool` is
`True` when the loop `break`s.  A raised exception anywhere inside the
`try` is caught and turns into `continue`. -/
def screenStep (scr : Screeners) (pushed : Finset Str) (st : LoopState)
    (article : Article) : LoopState × Bool :=
  let doi := norm (getS article.doi)
  if doi ≠ [] ∧ doi ∈ pushed then (st, false)
  else if getS article.title = [] ∨ getS article.abstract = [] then (st, false)
  else
    let st1 := { st with fastCalls := st.fastCalls ++ [article] }
    match scr.fast_screen article with
    | .error _ => (st1, false)
    | .ok false => (st1, false)
    | .ok true =>
        let st2 := { st1 with deepCalls := st1.deepCalls ++ [article] }
        match scr.analyze_article article with
        | .error _ => (st2, false)
        | .ok none => (st2, false)
        | .ok (some result) =>
            let category := result.category
            let st3 :=
              if category = S "carbene" then
                { st2 with carbene_papers := st2.carbene_papers ++ [(article, result)] }
              else if category = S "methodology" then
                { st2 with methodology_papers := st2.methodology_papers ++ [(article, result)] }
              else st2
            (st3, decide (MAX_CARBENE ≤ st3.carbene_papers.length ∧
                          MAX_METHODOLOGY ≤ st3.methodology_papers.length))

/-- The `for article in candidates` loop of `main.run`, folding `screenStep`
and stopping at the first `break`. -/
def screenLoop (scr : Screeners) (pushed : Finset Str) :
    LoopState → List Article → LoopState
  | st, [] => st
  | st, article :: rest =>
      let p := screenStep scr pushed st article
      if p.2 then p.1 else screenLoop scr pushed p.1 rest

/-- `main.py` line 101:
`final_selection = carbene_papers[:MAX_CARBENE] + methodology_papers[:MAX_METHODOLOGY]`. -/
def final_selection (st : LoopState) : List (Article × ClassResult) :=
  st.carbene_papers.take MAX_CARBENE ++ st.methodology_papers.take MAX_METHODOLOGY

/-- Steps 4-5 of `main.run`: run the screening loop from the empty state and
assemble the final delivery list. -/
def run_select (scr : Screeners) (pushed : Finset Str) (candidates : List Article) :
    List (Article × ClassResult) :=
  final_selection (screenLoop scr pushed initState candidates)

/-- Steps 6-7 of `main.run` (lines 105-129): skip delivery when the selection
is empty; otherwise call the notification collaborator (`FeishuBot`
construction, `build_card` and `send_card`, any of which may raise — all
folded into `notify`, which returns the `send_card` acknowledgement).  Only
on a `True` acknowledgement are the non-empty normalized DOIs of the
selection added to `pushed_dois` and the store rewritten via
`save_pushed_dois`.  Returns the in-memory pushed set and the store file
state after the commit step. -/
def commit (notify : List (Article × ClassResult) → Except Unit Bool)
    (selection : List (Article × ClassResult)) (pushed : Finset Str)
    (fs : FileState) : Finset Str × FileState :=
  if selection = [] then (pushed, fs)
  else
    match notify selection with
    | .error _ => (pushed, fs)
    | .ok false => (pushed, fs)
    | .ok true =>
        let pushed2 := selection.foldl (fun acc item =>
          let doi := norm (getS item.1.doi)
          if doi ≠ [] then insert doi acc else acc) pushed
        (pushed2, save_pushed_dois pushed2)

/-! ### Concrete sample data used by witnesses and counterexamples -/

/-- A classification result with category `"A"` (a category the pipeline does
not bucket). -/
def resultA : ClassResult := ⟨S "A", S "t", S "a", S "r"⟩

/-- A classification result with category `"carbene"`. -/
def resultCarbene : ClassResult := ⟨S "carbene", S "t", S "a", S "r"⟩

/-- A classification result with category `"methodology"`. -/
def resultMeth : ClassResult := ⟨S "methodology", S "t", S "a", S "r"⟩

/-- A candidate with a title and abstract but no DOI. -/
def articleT : Article := { title := some (S "t"), abstract := some (S "x") }

/-- A titled candidate, distinct from its siblings. -/
def articleT1 : Article := { title := some (S "t1"), abstract := some (S "x") }

/-- A titled candidate, distinct from its siblings. -/
def articleT2 : Article := { title := some (S "t2"), abstract := some (S "x") }

/-- A titled candidate, distinct from its siblings. -/
def articleT3 : Article := { title := some (S "t3"), abstract := some (S "x") }

/-- A complete candidate whose DOI needs trimming and lower-casing. -/
def articleDoi : Article :=
  { title := some (S "t"), abstract := some (S "x"), doi := some (S " 10.1/AB ") }

/-- A candidate carrying DOI `"10.1/AB"`. -/
def articleDoiUpper : Article := { doi := some (S "10.1/AB") }

/-- A candidate carrying DOI `" 10.1/ab "`. -/
def articleDoiSpaced : Article := { doi := some (S " 10.1/ab ") }

/-- A screener stub that passes everything and classifies as `"A"`. -/
def scrToA : Screeners := ⟨fun _ => .ok true, fun _ => .ok (some resultA)⟩

/-- A screener stub that passes everything and classifies as `"methodology"`. -/
def scrToMeth : Screeners := ⟨fun _ => .ok true, fun _ => .ok (some resultMeth)⟩

/-- A loop state with a full carbene bucket and one slot left in the
methodology bucket. -/
def nearFullState : LoopState :=
  { carbene_papers := List.replicate 8 (articleT, resultCarbene),
    methodology_papers := List.replicate 4 (articleT, resultMeth) }

/-! ## Theorems -/

/-! ### Basic lemmas about the string model -/

theorem pyLower_idem (c : Nat) : pyLower (pyLower c) = pyLower c := by
  unfold pyLower
  split
  · rw [if_neg (by omega)]
  · rfl

theorem lower_idem (s : Str) : lower (lower s) = lower s := by
  unfold lower
  rw [List.map_map]
  exact List.map_congr_left (fun c _ => pyLower_idem c)

theorem isSpace_pyLower (c : Nat) : isSpace (pyLower c) = isSpace c := by
  unfold pyLower
  split
  · have h1 : isSpace (c + 32) = false := by
      unfold isSpace; simp only [Bool.or_eq_false_iff, beq_eq_false_iff_ne, ne_eq]; omega
    have h2 : isSpace c = false := by
      unfold isSpace; simp only [Bool.or_eq_false_iff, beq_eq_false_iff_ne, ne_eq]; omega
    rw [h1, h2]
  · rfl

theorem dropWhile_map_pyLower (s : Str) :
    (s.map pyLower).dropWhile isSpace = (s.dropWhile isSpace).map pyLower := by
  induction s with
  | nil => rfl
  | cons c t ih =>
      simp only [List.map_cons, List.dropWhile_cons, isSpace_pyLower]
      by_cases h : isSpace c
      · simp [h, ih]
      · simp [h]

theorem lstrip_lower (s : Str) : lstrip (lower s) = lower (lstrip s) := by
  unfold lstrip lower
  exact dropWhile_map_pyLower s

theorem rstrip_lower (s : Str) : rstrip (lower s) = lower (rstrip s) := by
  unfold rstrip lower
  rw [← List.map_reverse, dropWhile_map_pyLower, List.map_reverse]

theorem strip_lower (s : Str) : strip (lower s) = lower (strip s) := by
  unfold strip
  rw [lstrip_lower, rstrip_lower]

/-- The head of `dropWhile p` does not satisfy `p`. -/
theorem head_dropWhile_false (p : Nat → Bool) (s : Str) (c : Nat) (t : Str)
    (h : s.dropWhile p = c :: t) : p c = false := by
  induction s with
  | nil => simp at h
  | cons a l ih =>
      rw [List.dropWhile_cons] at h
      by_cases hp : p a
      · exact ih (by simpa [hp] using h)
      · simp only [hp, if_false] at h
        cases h
        simpa using hp

/-- A string whose head is not whitespace is untouched by `lstrip`. -/
theorem lstrip_of_head (s : Str) (h : ∀ c t, s = c :: t → isSpace c = false) :
    lstrip s = s := by
  cases s with
  | nil => rfl
  | cons c t =>
      have := h c t rfl
      simp [lstrip, List.dropWhile_cons, this]

theorem lstrip_idem (s : Str) : lstrip (lstrip s) = lstrip s := by
  apply lstrip_of_head
  intro c t h
  exact head_dropWhile_false isSpace s c t h

/-- A string whose last element is not whitespace is untouched by `rstrip`. -/
theorem rstrip_of_last (s : Str) (h : ∀ c t, s.reverse = c :: t → isSpace c = false) :
    rstrip s = s := by
  have hkeep : s.reverse.dropWhile isSpace = s.reverse := by
    cases hrev : s.reverse with
    | nil => rfl
    | cons c t => exact List.dropWhile_cons_of_neg (by simp [h c t hrev])
  unfold rstrip
  rw [hkeep, List.reverse_reverse]

theorem rstrip_idem (s : Str) : rstrip (rstrip s) = rstrip s := by
  apply rstrip_of_last
  intro c t h
  unfold rstrip at h
  rw [List.reverse_reverse] at h
  exact head_dropWhile_false isSpace s.reverse c t h

/-- `rstrip` yields a prefix of its argument. -/
theorem rstrip_isPrefix_self (s : Str) : (rstrip s) <+: s := by
  unfold rstrip
  have h : (s.reverse.dropWhile isSpace) <:+ s.reverse := List.dropWhile_suffix isSpace
  have := List.reverse_prefix.mpr (by simpa using h)
  simpa using this

theorem lstrip_rstrip_lstrip (s : Str) : lstrip (rstrip (lstrip s)) = rstrip (lstrip s) := by
  apply lstrip_of_head
  intro c t h
  have hpre : rstrip (lstrip s) <+: lstrip s := rstrip_isPrefix_self (lstrip s)
  obtain ⟨u, hu⟩ := hpre
  rw [h] at hu
  exact head_dropWhile_false isSpace s c (t ++ u) (by simpa using hu.symm)

theorem strip_idem (s : Str) : strip (strip s) = strip s := by
  unfold strip
  rw [lstrip_rstrip_lstrip, rstrip_idem]

theorem norm_idem (s : Str) : norm (norm s) = norm s := by
  unfold norm
  rw [strip_lower, strip_idem, lower_idem]

theorem lower_eq_nil_iff (s : Str) : lower s = [] ↔ s = [] := by
  unfold lower
  simp

theorem norm_eq_nil_iff (s : Str) : norm s = [] ↔ strip s = [] := by
  unfold norm
  exact lower_eq_nil_iff _

theorem strip_norm (s : Str) : strip (norm s) = norm s := by
  unfold norm
  rw [strip_lower, strip_idem]

/-! ### The pushed-DOI store -/

theorem pyStr_str (s : Str) : pyStr (.str s) = s := rfl

/-- Every member of a loaded pushed set is non-empty and `strip`/`lower`
normalized. -/
theorem mem_load (fs : FileState) (t : Str) (ht : t ∈ load_pushed_dois fs) :
    t ≠ [] ∧ norm t = t := by
  cases fs with
  | missing => simp [load_pushed_dois] at ht
  | invalid r => simp [load_pushed_dois] at ht
  | parsed v =>
      cases v with
      | arr xs =>
          simp only [load_pushed_dois, List.mem_toFinset, List.mem_map, List.mem_filter,
            decide_eq_true_eq] at ht
          obtain ⟨x, ⟨_, hs⟩, rfl⟩ := ht
          refine ⟨?_, norm_idem _⟩
          intro h
          exact hs ((norm_eq_nil_iff _).mp h)
      | null => simp [load_pushed_dois] at ht
      | bool b => simp [load_pushed_dois] at ht
      | num n => simp [load_pushed_dois] at ht
      | str s => simp [load_pushed_dois] at ht
      | obj kvs => simp [load_pushed_dois] at ht

/-- Loading a JSON list of plain strings filters out blank entries and
normalizes the rest. -/
theorem load_list_strs (l : List Str) :
    ((l.map Json.str).filter (fun x => decide (strip (pyStr x) ≠ []))).map
      (fun x => norm (pyStr x)) =
    (l.filter (fun d => decide (strip d ≠ []))).map (fun d => norm d) := by
  rw [List.filter_map, List.map_map]
  rfl

theorem load_parsed_strs (l : List Str) :
    load_pushed_dois (.parsed (.arr (l.map Json.str))) =
      ((l.filter (fun d => decide (strip d ≠ []))).map (fun d => norm d)).toFinset := by
  simp only [load_pushed_dois]
  rw [load_list_strs]

/-- Loading back a save yields exactly the spec's normalization. -/
theorem load_save_norm (A : Finset Str) :
    load_pushed_dois (save_pushed_dois A) = normalize_spec A := by
  simp only [save_pushed_dois]
  rw [load_parsed_strs]
  ext t
  simp only [List.mem_toFinset, List.mem_map, List.mem_filter, Finset.mem_sort,
    Finset.mem_image, Finset.mem_filter, decide_eq_true_eq, normalize_spec]
  constructor
  · rintro ⟨d, ⟨⟨c, ⟨hcA, _, hc2⟩, rfl⟩, _⟩, rfl⟩
    refine ⟨⟨c, hcA, (norm_idem c).symm⟩, ?_⟩
    intro h
    rw [norm_eq_nil_iff, strip_norm] at h
    exact hc2 ((norm_eq_nil_iff c).mp h)
  · rintro ⟨⟨c, hcA, rfl⟩, hne⟩
    have hsc : strip c ≠ [] := fun h => hne ((norm_eq_nil_iff c).mpr h)
    have hcne : c ≠ [] := by
      intro h; subst h; exact hsc rfl
    exact ⟨norm c, ⟨⟨c, ⟨hcA, hcne, hsc⟩, rfl⟩, by rw [strip_norm]; exact hne⟩, norm_idem c⟩

/-- The spec's normalization fixes any already-normalized set. -/
theorem normalize_spec_load (fs : FileState) :
    normalize_spec (load_pushed_dois fs) = load_pushed_dois fs := by
  unfold normalize_spec
  ext t
  simp only [Finset.mem_filter, Finset.mem_image]
  constructor
  · rintro ⟨⟨c, hc, rfl⟩, _⟩
    rw [(mem_load fs c hc).2]
    exact hc
  · intro htl
    obtain ⟨hne, hnorm⟩ := mem_load fs t htl
    exact ⟨⟨t, htl, hnorm⟩, hne⟩

/-- C5: Pushed-Set round trip: for every set `S` of strings, loading after
persisting yields exactly the normalization of `S` (lower-cased, trimmed,
empties dropped): `load (persist S) = normalize S`; consequently
`persist (load p)` changes nothing beyond normalization:
`load (persist (load p)) = load p`. -/
theorem C5_pushed_set_roundtrip :
    (∀ A : Finset Str, load_pushed_dois (save_pushed_dois A) = normalize_spec A) ∧
    (∀ fs : FileState,
      load_pushed_dois (save_pushed_dois (load_pushed_dois fs)) = load_pushed_dois fs) :=
  ⟨load_save_norm, fun fs => by rw [load_save_norm, normalize_spec_load]⟩

/-- C7: `load_pushed_dois` on a missing path, on an empty file (which is not
well-formed JSON), and on a file whose JSON content is the string
`"not a list"` all return the empty set; the embedding is a total function,
so no exception escapes. -/
theorem C7_load_resilience :
    load_pushed_dois .missing = ∅ ∧
    load_pushed_dois (.invalid []) = ∅ ∧
    load_pushed_dois (.parsed (.str (S "not a list"))) = ∅ :=
  ⟨rfl, rfl, rfl⟩

/-- C10: every element of the set returned by `load_pushed_dois` is a
non-empty string equal to its own `strip().lower()`, regardless of the
file's content. -/
theorem C10_load_normalized (fs : FileState) (t : Str)
    (ht : t ∈ load_pushed_dois fs) : t ≠ [] ∧ norm t = t :=
  mem_load fs t ht

/-- Witness for C10 at a concrete un-normalized store file. -/
theorem C10_load_normalized_witness :
    (S "abc") ∈ load_pushed_dois (.parsed (.arr [.str (S "  AbC ")])) ∧
    (S "abc" ≠ [] ∧ norm (S "abc") = S "abc") :=
  ⟨by decide,
    C10_load_normalized (.parsed (.arr [.str (S "  AbC ")])) (S "abc") (by decide)⟩

/-! ### The dedup filter -/

/-- The dedup pass yields a sub-sequence of its input. -/
theorem dedupGo_sublist (items : List Article) :
    ∀ seen : Finset Str, (dedupGo seen items).Sublist items := by
  induction items with
  | nil => intro seen; simp [dedupGo]
  | cons item rest ih =>
      intro seen
      unfold dedupGo
      by_cases h : dedupKey item ∈ seen
      · simp only [if_pos h]
        exact (ih seen).trans (List.sublist_cons_self item rest)
      · simp only [if_neg h]
        exact (ih (insert (dedupKey item) seen)).cons₂ item

/-- No key of the dedup pass output lies in the incoming `seen` set. -/
theorem dedupGo_not_seen (items : List Article) :
    ∀ (seen : Finset Str) (y : Article), y ∈ dedupGo seen items → dedupKey y ∉ seen := by
  induction items with
  | nil => intro seen y hy; simp [dedupGo] at hy
  | cons item rest ih =>
      intro seen y hy
      unfold dedupGo at hy
      by_cases h : dedupKey item ∈ seen
      · rw [if_pos h] at hy
        exact ih seen y hy
      · rw [if_neg h] at hy
        rcases List.mem_cons.mp hy with rfl | hy'
        · exact h
        · have := ih _ y hy'
          intro hseen
          exact this (Finset.mem_insert_of_mem hseen)

/-- The dedup pass output has pairwise distinct keys. -/
theorem dedupGo_nodup_keys (items : List Article) :
    ∀ seen : Finset Str, ((dedupGo seen items).map dedupKey).Nodup := by
  induction items with
  | nil => intro seen; simp [dedupGo]
  | cons item rest ih =>
      intro seen
      unfold dedupGo
      by_cases h : dedupKey item ∈ seen
      · rw [if_pos h]; exact ih seen
      · rw [if_neg h]
        simp only [List.map_cons, List.nodup_cons]
        refine ⟨?_, ih _⟩
        intro hmem
        obtain ⟨y, hy, hkey⟩ := List.mem_map.mp hmem
        exact dedupGo_not_seen rest _ y hy (hkey ▸ Finset.mem_insert_self _ _)

/-- For every item whose key is not yet seen, the retained representative of
its key is exactly the first occurrence of that key in the input. -/
theorem dedupGo_first_occurrence (items : List Article) :
    ∀ (seen : Finset Str) (it : Article), it ∈ items → dedupKey it ∉ seen →
      ∃ y, y ∈ dedupGo seen items ∧
        items.find? (fun x => decide (dedupKey x = dedupKey it)) = some y := by
  induction items with
  | nil => intro seen it hit; simp at hit
  | cons item rest ih =>
      intro seen it hit hns
      unfold dedupGo
      by_cases h : dedupKey item ∈ seen
      · rw [if_pos h]
        have hne : dedupKey item ≠ dedupKey it := by
          intro he; exact hns (he ▸ h)
        have hit' : it ∈ rest := by
          rcases List.mem_cons.mp hit with rfl | hr
          · exact absurd rfl hne
          · exact hr
        obtain ⟨y, hy, hfind⟩ := ih seen it hit' hns
        refine ⟨y, hy, ?_⟩
        rw [List.find?_cons_of_neg _ (by simpa using hne)]
        exact hfind
      · rw [if_neg h]
        by_cases hkey : dedupKey item = dedupKey it
        · exact ⟨item, List.mem_cons_self item _,
            List.find?_cons_of_pos _ (by simpa using hkey)⟩
        · have hit' : it ∈ rest := by
            rcases List.mem_cons.mp hit with rfl | hr
            · exact absurd rfl hkey
            · exact hr
          have hns' : dedupKey it ∉ insert (dedupKey item) seen := by
            simp only [Finset.mem_insert]
            rintro (he | hseen)
            · exact hkey he.symm
            · exact hns hseen
          obtain ⟨y, hy, hfind⟩ := ih _ it hit' hns'
          refine ⟨y, List.mem_cons_of_mem item hy, ?_⟩
          rw [List.find?_cons_of_neg _ (by simpa using hkey)]
          exact hfind

/-- C6: `deduplicate_by_doi` returns a sub-sequence of its input (so relative
order of retained elements is preserved), no two of its elements share a
dedup key, and for every identifier occurring in the input the retained
element is the first occurrence of that identifier. -/
theorem C6_dedupe_correct (items : List Article) :
    (deduplicate_by_doi items).Sublist items ∧
    ((deduplicate_by_doi items).map dedupKey).Nodup ∧
    ∀ it ∈ items, ∃ y, y ∈ deduplicate_by_doi items ∧
      items.find? (fun x => decide (dedupKey x = dedupKey it)) = some y := by
  refine ⟨dedupGo_sublist items ∅, dedupGo_nodup_keys items ∅, ?_⟩
  intro it hit
  exact dedupGo_first_occurrence items ∅ it hit (Finset.not_mem_empty _)

/-- C8: two candidates with the same non-empty DOI, compared after trimming
and lower-casing, always yield the same identifier. -/
theorem C8_identifier_stability (a b : Article)
    (h1 : strip (getS a.doi) ≠ [])
    (h2 : norm (getS a.doi) = norm (getS b.doi)) :
    dedupKey a = dedupKey b := by
  have ha : norm (getS a.doi) ≠ [] := fun h => h1 ((norm_eq_nil_iff _).mp h)
  have hb : norm (getS b.doi) ≠ [] := h2 ▸ ha
  unfold dedupKey
  rw [if_neg ha, if_neg hb]
  exact h2

/-- Witness for C8: `identifier(doi:"10.1/AB") = identifier(doi:" 10.1/ab ")`. -/
theorem C8_identifier_stability_witness :
    strip (getS articleDoiUpper.doi) ≠ [] ∧
    norm (getS articleDoiUpper.doi) = norm (getS articleDoiSpaced.doi) ∧
    dedupKey articleDoiUpper = dedupKey articleDoiSpaced :=
  ⟨by decide, by decide,
    C8_identifier_stability articleDoiUpper articleDoiSpaced (by decide) (by decide)⟩

/-! ### The screening loop -/

/-- One loop iteration only ever appends the current article (and its
enrichment) to the four state fields, and the `break` flag implies both
quotas are met in the post-state. -/
theorem screenStep_extends (scr : Screeners) (pushed : Finset Str) (st : LoopState)
    (b : Article) :
    ∃ c m f d,
      (screenStep scr pushed st b).1 =
        ⟨st.carbene_papers ++ c, st.methodology_papers ++ m,
         st.fastCalls ++ f, st.deepCalls ++ d⟩ ∧
      (f = [] ∨ f = [b]) ∧ (d = [] ∨ d = [b]) ∧
      (c = [] ∨ ∃ r, c = [(b, r)]) ∧ (m = [] ∨ ∃ r, m = [(b, r)]) ∧
      ((screenStep scr pushed st b).2 = true →
        MAX_CARBENE ≤ (screenStep scr pushed st b).1.carbene_papers.length ∧
        MAX_METHODOLOGY ≤ (screenStep scr pushed st b).1.methodology_papers.length) := by
  unfold screenStep
  by_cases h1 : (norm (getS b.doi) ≠ [] ∧ norm (getS b.doi) ∈ pushed)
  · simp only [if_pos h1]
    exact ⟨[], [], [], [], by simp, Or.inl rfl, Or.inl rfl, Or.inl rfl, Or.inl rfl, by simp⟩
  · simp only [if_neg h1]
    by_cases h2 : (getS b.title = [] ∨ getS b.abstract = [])
    · simp only [if_pos h2]
      exact ⟨[], [], [], [], by simp, Or.inl rfl, Or.inl rfl, Or.inl rfl, Or.inl rfl, by simp⟩
    · simp only [if_neg h2]
      cases hfs : scr.fast_screen b with
      | error e =>
          exact ⟨[], [], [b], [], by simp, Or.inr rfl, Or.inl rfl, Or.inl rfl, Or.inl rfl,
            by simp⟩
      | ok pass =>
          cases pass with
          | false =>
              exact ⟨[], [], [b], [], by simp, Or.inr rfl, Or.inl rfl, Or.inl rfl, Or.inl rfl,
                by simp⟩
          | true =>
              cases han : scr.analyze_article b with
              | error e =>
                  exact ⟨[], [], [b], [b], by simp, Or.inr rfl, Or.inr rfl, Or.inl rfl,
                    Or.inl rfl, by simp⟩
              | ok resOpt =>
                  cases resOpt with
                  | none =>
                      exact ⟨[], [], [b], [b], by simp, Or.inr rfl, Or.inr rfl, Or.inl rfl,
                        Or.inl rfl, by simp⟩
                  | some result =>
                      by_cases hcat : result.category = S "carbene"
                      · simp only [if_pos hcat]
                        refine ⟨[(b, result)], [], [b], [b], by simp, Or.inr rfl, Or.inr rfl,
                          Or.inr ⟨result, rfl⟩, Or.inl rfl, ?_⟩
                        intro hbrk
                        exact of_decide_eq_true hbrk
                      · simp only [if_neg hcat]
                        by_cases hmet : result.category = S "methodology"
                        · simp only [if_pos hmet]
                          refine ⟨[], [(b, result)], [b], [b], by simp, Or.inr rfl, Or.inr rfl,
                            Or.inl rfl, Or.inr ⟨result, rfl⟩, ?_⟩
                          intro hbrk
                          exact of_decide_eq_true hbrk
                        · simp only [if_neg hmet]
                          refine ⟨[], [], [b], [b], by simp, Or.inr rfl, Or.inr rfl,
                            Or.inl rfl, Or.inl rfl, ?_⟩
                          intro hbrk
                          exact of_decide_eq_true hbrk

/-- A candidate whose normalized DOI is non-empty and already pushed is
skipped: the loop body leaves the state untouched and does not break. -/
theorem screenStep_skip (scr : Screeners) (pushed : Finset Str) (st : LoopState)
    (b : Article) (h1 : norm (getS b.doi) ≠ []) (h2 : norm (getS b.doi) ∈ pushed) :
    screenStep scr pushed st b = (st, false) := by
  unfold screenStep
  simp only [if_pos (And.intro h1 h2)]

/-- Unfolding equation for `screenLoop` on a non-empty candidate list. -/
theorem screenLoop_cons (scr : Screeners) (pushed : Finset Str) (st : LoopState)
    (b : Article) (rest : List Article) :
    screenLoop scr pushed st (b :: rest) =
      if (screenStep scr pushed st b).2 then (screenStep scr pushed st b).1
      else screenLoop scr pushed (screenStep scr pushed st b).1 rest := rfl

/-- The screening loop only ever appends to the four state fields; appended
call traces come from the candidate list and appended bucket entries carry
candidates in input order (sub-sequence). -/
theorem screenLoop_extends (scr : Screeners) (pushed : Finset Str)
    (cands : List Article) :
    ∀ st : LoopState,
      ∃ c m f d,
        screenLoop scr pushed st cands =
          ⟨st.carbene_papers ++ c, st.methodology_papers ++ m,
           st.fastCalls ++ f, st.deepCalls ++ d⟩ ∧
        (∀ x ∈ f, x ∈ cands) ∧ (∀ x ∈ d, x ∈ cands) ∧
        (c.map Prod.fst).Sublist cands ∧ (m.map Prod.fst).Sublist cands := by
  induction cands with
  | nil =>
      intro st
      exact ⟨[], [], [], [], by simp [screenLoop], by simp, by simp, by simp, by simp⟩
  | cons b rest ih =>
      intro st
      obtain ⟨c1, m1, f1, d1, hst, hf1, hd1, hc1, hm1, _⟩ := screenStep_extends scr pushed st b
      rw [screenLoop_cons]
      cases hsnd : (screenStep scr pushed st b).2 with
      | true =>
          rw [if_pos rfl]
          refine ⟨c1, m1, f1, d1, hst, ?_, ?_, ?_, ?_⟩
          · rcases hf1 with rfl | rfl <;> simp
          · rcases hd1 with rfl | rfl <;> simp
          · rcases hc1 with rfl | ⟨r, rfl⟩
            · simp
            · exact (List.nil_sublist rest).cons₂ b
          · rcases hm1 with rfl | ⟨r, rfl⟩
            · simp
            · exact (List.nil_sublist rest).cons₂ b
      | false =>
          rw [if_neg (by simp)]
          obtain ⟨c2, m2, f2, d2, hloop, hf2, hd2, hc2, hm2⟩ :=
            ih (screenStep scr pushed st b).1
          rw [hst] at hloop ⊢
          refine ⟨c1 ++ c2, m1 ++ m2, f1 ++ f2, d1 ++ d2, by simpa [List.append_assoc] using hloop,
            ?_, ?_, ?_, ?_⟩
          · intro x hx
            rcases List.mem_append.mp hx with hx | hx
            · rcases hf1 with rfl | rfl
              · simp at hx
              · simp at hx; simp [hx]
            · exact List.mem_cons_of_mem b (hf2 x hx)
          · intro x hx
            rcases List.mem_append.mp hx with hx | hx
            · rcases hd1 with rfl | rfl
              · simp at hx
              · simp at hx; simp [hx]
            · exact List.mem_cons_of_mem b (hd2 x hx)
          · rw [List.map_append]
            rcases hc1 with rfl | ⟨r, rfl⟩
            · simpa using hc2.cons b
            · simpa using hc2.cons₂ b
          · rw [List.map_append]
            rcases hm1 with rfl | ⟨r, rfl⟩
            · simpa using hm2.cons b
            · simpa using hm2.cons₂ b

/-- C9: the final delivery list is the carbene bucket truncated to
`MAX_CARBENE = 8` followed by the methodology bucket truncated to
`MAX_METHODOLOGY = 5`, and each bucket lists candidates in input order
(its articles form a sub-sequence of the candidate list). -/
theorem C9_final_assembly (scr : Screeners) (pushed : Finset Str)
    (cands : List Article) :
    MAX_CARBENE = 8 ∧ MAX_METHODOLOGY = 5 ∧
    run_select scr pushed cands =
      (screenLoop scr pushed initState cands).carbene_papers.take MAX_CARBENE ++
      (screenLoop scr pushed initState cands).methodology_papers.take MAX_METHODOLOGY ∧
    ((screenLoop scr pushed initState cands).carbene_papers.map Prod.fst).Sublist cands ∧
    ((screenLoop scr pushed initState cands).methodology_papers.map Prod.fst).Sublist cands := by
  obtain ⟨c, m, f, d, heq, _, _, hc, hm⟩ := screenLoop_extends scr pushed cands initState
  refine ⟨rfl, rfl, rfl, ?_, ?_⟩
  · rw [heq]
    simpa [initState] using hc
  · rw [heq]
    simpa [initState] using hm

/-- C4 counterexample: with a classify stub returning category `"A"` for
every item, the code's selection returns no items at all (there is no
configurable quota map: only the hardcoded `carbene`/`methodology` buckets
exist), and the Layer 2 classifier is invoked on every one of the three
candidates — so the claimed "returns exactly 2 items and stops calling
classify" fails. -/
theorem C4_quota_counterexample :
    run_select scrToA ∅ [articleT1, articleT2, articleT3] = [] ∧
    (screenLoop scrToA ∅ initState [articleT1, articleT2, articleT3]).deepCalls =
      [articleT1, articleT2, articleT3] := by
  constructor
  · decide
  · decide

/-- C4 (amended): whenever an iteration's early-termination test fires —
which happens exactly when both hardcoded buckets have reached their quotas
(`MAX_CARBENE` for carbene, `MAX_METHODOLOGY` for methodology) — the loop
stops: the remaining candidates are never examined and no further screener
calls are made. -/
theorem C4_early_termination (scr : Screeners) (pushed : Finset Str)
    (a : Article) (rest : List Article) (st : LoopState)
    (h : (screenStep scr pushed st a).2 = true) :
    screenLoop scr pushed st (a :: rest) = (screenStep scr pushed st a).1 ∧
    MAX_CARBENE ≤ (screenStep scr pushed st a).1.carbene_papers.length ∧
    MAX_METHODOLOGY ≤ (screenStep scr pushed st a).1.methodology_papers.length := by
  obtain ⟨_, _, _, _, _, _, _, _, _, hbrk⟩ := screenStep_extends scr pushed st a
  refine ⟨?_, (hbrk h).1, (hbrk h).2⟩
  rw [screenLoop_cons, h, if_pos rfl]

/-- Witness for C4 (amended): a concrete state with a full carbene bucket and
four methodology entries; one more methodology classification triggers the
break, and the second candidate is never examined. -/
theorem C4_early_termination_witness :
    (screenStep scrToMeth ∅ nearFullState articleT).2 = true ∧
    (screenLoop scrToMeth ∅ nearFullState [articleT, articleT2] =
       (screenStep scrToMeth ∅ nearFullState articleT).1 ∧
     MAX_CARBENE ≤ (screenStep scrToMeth ∅ nearFullState articleT).1.carbene_papers.length ∧
     MAX_METHODOLOGY ≤
       (screenStep scrToMeth ∅ nearFullState articleT).1.methodology_papers.length) :=
  ⟨by decide, C4_early_termination scrToMeth ∅ articleT [articleT2] nearFullState (by decide)⟩

/-- An article with a non-empty pushed normalized DOI never enters the call
traces or the buckets, for any starting state that does not already hold it. -/
theorem screenLoop_skips_pushed (scr : Screeners) (pushed : Finset Str) (a : Article)
    (h1 : norm (getS a.doi) ≠ []) (h2 : norm (getS a.doi) ∈ pushed) :
    ∀ (cands : List Article) (st : LoopState),
      a ∉ st.fastCalls → a ∉ st.deepCalls →
      (∀ e ∈ st.carbene_papers, e.1 ≠ a) → (∀ e ∈ st.methodology_papers, e.1 ≠ a) →
      a ∉ (screenLoop scr pushed st cands).fastCalls ∧
      a ∉ (screenLoop scr pushed st cands).deepCalls ∧
      (∀ e ∈ (screenLoop scr pushed st cands).carbene_papers, e.1 ≠ a) ∧
      (∀ e ∈ (screenLoop scr pushed st cands).methodology_papers, e.1 ≠ a) := by
  intro cands
  induction cands with
  | nil =>
      intro st hf hd hc hm
      exact ⟨hf, hd, hc, hm⟩
  | cons b rest ih =>
      intro st hf hd hc hm
      rw [screenLoop_cons]
      by_cases hab : b = a
      · subst hab
        rw [screenStep_skip scr pushed st b h1 h2]
        rw [if_neg (by simp)]
        exact ih st hf hd hc hm
      · obtain ⟨c1, m1, f1, d1, hst, hf1, hd1, hc1, hm1, _⟩ :=
          screenStep_extends scr pushed st b
        have hf' : a ∉ (screenStep scr pushed st b).1.fastCalls := by
          rw [hst]
          simp only [List.mem_append]
          rintro (hx | hx)
          · exact hf hx
          · rcases hf1 with rfl | rfl
            · simp at hx
            · simp at hx; exact hab hx.symm
        have hd' : a ∉ (screenStep scr pushed st b).1.deepCalls := by
          rw [hst]
          simp only [List.mem_append]
          rintro (hx | hx)
          · exact hd hx
          · rcases hd1 with rfl | rfl
            · simp at hx
            · simp at hx; exact hab hx.symm
        have hc' : ∀ e ∈ (screenStep scr pushed st b).1.carbene_papers, e.1 ≠ a := by
          rw [hst]
          intro e he
          rcases List.mem_append.mp he with hx | hx
          · exact hc e hx
          · rcases hc1 with rfl | ⟨r, rfl⟩
            · simp at hx
            · simp at hx
              rw [hx]
              exact hab
        have hm' : ∀ e ∈ (screenStep scr pushed st b).1.methodology_papers, e.1 ≠ a := by
          rw [hst]
          intro e he
          rcases List.mem_append.mp he with hx | hx
          · exact hm e hx
          · rcases hm1 with rfl | ⟨r, rfl⟩
            · simp at hx
            · simp at hx
              rw [hx]
              exact hab
        cases hsnd : (screenStep scr pushed st b).2 with
        | true =>
            rw [if_pos rfl]
            exact ⟨hf', hd', hc', hm'⟩
        | false =>
            rw [if_neg (by simp)]
            exact ih (screenStep scr pushed st b).1 hf' hd' hc' hm'

/-- C2 counterexample: the pushed-set check only consults the DOI, never the
title-based fallback identifier.  A candidate with an empty DOI whose
identifier `"title::t"` is in the loaded pushed set is still screened (the
classifier layers are called on it) and still selected. -/
theorem C2_suppression_counterexample :
    dedupKey articleT ≠ [] ∧
    dedupKey articleT ∈ load_pushed_dois (.parsed (.arr [.str (S "title::t")])) ∧
    (screenLoop scrToMeth (load_pushed_dois (.parsed (.arr [.str (S "title::t")])))
      initState [articleT]).fastCalls = [articleT] ∧
    (screenLoop scrToMeth (load_pushed_dois (.parsed (.arr [.str (S "title::t")])))
      initState [articleT]).deepCalls = [articleT] ∧
    run_select scrToMeth (load_pushed_dois (.parsed (.arr [.str (S "title::t")])))
      [articleT] = [(articleT, resultMeth)] := by
  refine ⟨by decide, by decide, by decide, by decide, by decide⟩

/-- C2 (amended): a candidate whose DOI normalizes to a non-empty string that
is in the loaded pushed set is skipped without any screener call and is never
selected; candidates with an empty DOI are not checked against the pushed set
(the title fallback identifier is not consulted by this check). -/
theorem C2_cross_run_suppression (scr : Screeners) (pushed : Finset Str)
    (cands : List Article) (a : Article)
    (h1 : norm (getS a.doi) ≠ []) (h2 : norm (getS a.doi) ∈ pushed) :
    a ∉ (screenLoop scr pushed initState cands).fastCalls ∧
    a ∉ (screenLoop scr pushed initState cands).deepCalls ∧
    ∀ e ∈ run_select scr pushed cands, e.1 ≠ a := by
  obtain ⟨hf, hd, hc, hm⟩ := screenLoop_skips_pushed scr pushed a h1 h2 cands initState
    (by simp [initState]) (by simp [initState]) (by simp [initState]) (by simp [initState])
  refine ⟨hf, hd, ?_⟩
  intro e he
  simp only [run_select, final_selection] at he
  rcases List.mem_append.mp he with h | h
  · exact hc e (List.take_subset _ _ h)
  · exact hm e (List.take_subset _ _ h)

/-- Witness for C2 (amended): a candidate with pushed DOI `"10.1/ab"` is
neither screened nor selected. -/
theorem C2_cross_run_suppression_witness :
    norm (getS articleDoi.doi) ≠ [] ∧
    norm (getS articleDoi.doi) ∈ ({S "10.1/ab"} : Finset Str) ∧
    (articleDoi ∉ (screenLoop scrToMeth {S "10.1/ab"} initState [articleDoi]).fastCalls ∧
     articleDoi ∉ (screenLoop scrToMeth {S "10.1/ab"} initState [articleDoi]).deepCalls ∧
     ∀ e ∈ run_select scrToMeth {S "10.1/ab"} [articleDoi], e.1 ≠ articleDoi) :=
  ⟨by decide, by decide,
    C2_cross_run_suppression scrToMeth {S "10.1/ab"} [articleDoi] articleDoi
      (by decide) (by decide)⟩

/-! ### Delivery commit -/

/-- C1: if the notification call returns `False` or raises, the commit step
neither mutates the in-memory pushed set nor persists: the pushed set and the
store file state are returned exactly as they were (so the file content is
byte-identical to before). -/
theorem C1_commit_atomicity (notify : List (Article × ClassResult) → Except Unit Bool)
    (selection : List (Article × ClassResult)) (pushed : Finset Str) (fs : FileState)
    (h : notify selection = .error () ∨ notify selection = .ok false) :
    commit notify selection pushed fs = (pushed, fs) := by
  unfold commit
  by_cases hsel : selection = []
  · rw [if_pos hsel]
  · rw [if_neg hsel]
    rcases h with h | h <;> rw [h]

/-- Witness for C1: a failed delivery of a one-article selection leaves an
empty pushed set and a missing store file untouched. -/
theorem C1_commit_atomicity_witness :
    ((fun _ => Except.ok false :
        List (Article × ClassResult) → Except Unit Bool) [(articleDoi, resultCarbene)] =
          Except.error () ∨
     (fun _ => Except.ok false :
        List (Article × ClassResult) → Except Unit Bool) [(articleDoi, resultCarbene)] =
          Except.ok false) ∧
    commit (fun _ => Except.ok false) [(articleDoi, resultCarbene)] ∅ FileState.missing =
      (∅, FileState.missing) :=
  ⟨Or.inr rfl, C1_commit_atomicity _ _ _ _ (Or.inr rfl)⟩

/-- Folding the commit-step DOI insertions equals a set union with the
non-empty normalized DOIs of the selection. -/
theorem commit_foldl_union (l : List (Article × ClassResult)) :
    ∀ acc : Finset Str,
      l.foldl (fun acc item =>
        let doi := norm (getS item.1.doi)
        if doi ≠ [] then insert doi acc else acc) acc =
      acc ∪ (l.filterMap (fun item =>
        if norm (getS item.1.doi) = [] then none
        else some (norm (getS item.1.doi)))).toFinset := by
  induction l with
  | nil => intro acc; simp
  | cons x t ih =>
      intro acc
      simp only [List.foldl_cons, List.filterMap_cons]
      by_cases hd : norm (getS x.1.doi) = []
      · rw [if_pos hd, if_neg (by simp [hd])]
        exact ih acc
      · rw [if_neg hd, if_pos hd]
        rw [ih (insert (norm (getS x.1.doi)) acc)]
        simp only [List.toFinset_cons]
        rw [Finset.insert_union, Finset.union_insert]

/-- C3 counterexample: on confirmed delivery the commit records only DOIs;
an item whose identifier is the non-empty title fallback `"title::t"` is
*not* unioned into the pushed set, contrary to the claim. -/
theorem C3_bookkeeping_counterexample :
    dedupKey articleT ≠ [] ∧
    (fun _ => Except.ok true :
        List (Article × ClassResult) → Except Unit Bool) [(articleT, resultMeth)] =
      Except.ok true ∧
    dedupKey articleT ∉
      (commit (fun _ => Except.ok true) [(articleT, resultMeth)] ∅ FileState.missing).1 :=
  ⟨by decide, rfl, by decide⟩

/-- C3 (amended): when `notify` returns `True` on a non-empty selection, the
commit unions into the pushed set exactly the non-empty normalized DOIs of
the selected items (items with an empty DOI are not recorded; the title-based
fallback identifier is not used here), and persists the result. -/
theorem C3_commit_bookkeeping (notify : List (Article × ClassResult) → Except Unit Bool)
    (selection : List (Article × ClassResult)) (pushed : Finset Str) (fs : FileState)
    (h1 : selection ≠ []) (h2 : notify selection = .ok true) :
    (commit notify selection pushed fs).1 =
      pushed ∪ (selection.filterMap (fun item =>
        if norm (getS item.1.doi) = [] then none
        else some (norm (getS item.1.doi)))).toFinset ∧
    (commit notify selection pushed fs).2 =
      save_pushed_dois ((commit notify selection pushed fs).1) := by
  unfold commit
  rw [if_neg h1, h2]
  exact ⟨commit_foldl_union selection pushed, rfl⟩

/-- Witness for C3 (amended): a successful delivery of one item with DOI
`" 10.1/AB "` unions `"10.1/ab"` into the pushed set and persists it. -/
theorem C3_commit_bookkeeping_witness :
    ([(articleDoi, resultCarbene)] : List (Article × ClassResult)) ≠ [] ∧
    (fun _ => Except.ok true :
        List (Article × ClassResult) → Except Unit Bool) [(articleDoi, resultCarbene)] =
      Except.ok true ∧
    ((commit (fun _ => Except.ok true) [(articleDoi, resultCarbene)] ∅ FileState.missing).1 =
       ∅ ∪ (([(articleDoi, resultCarbene)] : List (Article × ClassResult)).filterMap
         (fun item =>
           if norm (getS item.1.doi) = [] then none
           else some (norm (getS item.1.doi)))).toFinset ∧
     (commit (fun _ => Except.ok true) [(articleDoi, resultCarbene)] ∅ FileState.missing).2 =
       save_pushed_dois
         ((commit (fun _ => Except.ok true) [(articleDoi, resultCarbene)] ∅
           FileState.missing).1)) :=
  ⟨by decide, rfl, C3_commit_bookkeeping _ _ _ _ (by decide) rfl⟩

end Radar
